import Mathlib

/-!
Verification development for the directory-snapshot serializer in
`scripts/list_all.py` (functions `read_file`, `get_hierarchy`,
`get_files_recursive`, `get_folder_content`).

The filesystem is modelled by the inductive `FSTree`:
  * `FSTree.file content` — a regular file; `content = none` models a file
    whose `open`/read raises (permission error, decode failure, vanished
    file); `content = some lines` gives its physical lines, each carrying
    its original terminator.
  * `FSTree.dir children` — a listable directory; `children` associates
    each child name with its subtree, in the (arbitrary, deterministic)
    order `os.listdir`/`os.scandir` would return.
  * `FSTree.badDir cause` — a directory whose listing raises with message
    `cause` (`os.listdir` failure; `os.walk` with the default
    `onerror=None` silently skips such a directory).

Path strings are built with an explicit platform separator `sep`
(`os.sep`): `pathJoin` models `os.path.join` for the relative, non-empty
components this program produces, and `basename` models
`os.path.basename`.  `get_files_recursive` accumulates each file's
relative path as its list of path components; the string
`os.path.relpath` would return for these inputs is exactly those
components intercalated with `sep`, which is how the components are
joined where the program consumes them.
-/

/-- Characters stripped by Python's `str.strip()` (ASCII whitespace). -/
def pyWS (c : Char) : Bool :=
  c = ' ' || c = '\t' || c = '\n' || c = '\r' || c = Char.ofNat 11 || c = Char.ofNat 12

/-- Python's `line.strip()`: drop leading and trailing whitespace. -/
def pyStrip (s : String) : String :=
  String.mk (((s.data.dropWhile pyWS).reverse.dropWhile pyWS).reverse)

/-- Test that `needle` occurs as a contiguous run at the head of `hay`. -/
def startsList : List Char → List Char → Bool
  | [], _ => true
  | _ :: _, [] => false
  | a :: as, b :: bs => a == b && startsList as bs

/-- Test that `needle` occurs as a contiguous run anywhere in `hay`. -/
def containsList (needle : List Char) : List Char → Bool
  | [] => startsList needle []
  | b :: bs => startsList needle (b :: bs) || containsList needle bs

/-- Python's substring operator `needle in hay` on strings. -/
def pyIn (needle hay : String) : Bool :=
  containsList needle.data hay.data

/-- Python's `any(exclude in name for exclude in excludes)`: the exclusion test
applied to a single file or directory name. -/
def anyExcl (excludes : List String) (name : String) : Bool :=
  excludes.any (fun e => pyIn e name)

/-- Model of the filesystem subtree the script operates on. -/
inductive FSTree where
  | file (content : Option (List String))
  | dir (children : List (String × FSTree))
  | badDir (cause : String)

/-- Model of `os.path.isdir` on a resolved node: an unlistable directory is still a
directory. -/
def FSTree.isDir : FSTree → Bool
  | .file _ => false
  | .dir _ => true
  | .badDir _ => true

/-- Model of `read_file(path)`: keep each physical line unless its stripped form is
empty or starts with `//`; kept lines stay verbatim (with their original
terminators) and are concatenated; any open/read failure yields `""`. -/
def read_file (content : Option (List String)) : String :=
  match content with
  | none => ""
  | some lines =>
      String.join (lines.filter (fun line =>
        let stripped := pyStrip line
        !(stripped == "" || startsList "//".data stripped.data)))

/-- Python-order comparison of strings (lexicographic on code points),
as used by `sorted`. -/
def pyLt : List Char → List Char → Bool
  | [], [] => false
  | [], _ :: _ => true
  | _ :: _, [] => false
  | a :: as, b :: bs =>
      if a.toNat < b.toNat then true
      else if b.toNat < a.toNat then false
      else pyLt as bs

/-- Insert one named entry into a name-sorted list of entries. -/
def insertByName (x : String × FSTree) : List (String × FSTree) → List (String × FSTree)
  | [] => [x]
  | y :: ys => if pyLt y.1.data x.1.data then y :: insertByName x ys else x :: y :: ys

/-- Model of `sorted(os.listdir(path))`: sort a directory listing by name. -/
def sortByName : List (String × FSTree) → List (String × FSTree)
  | [] => []
  | x :: xs => insertByName x (sortByName xs)

/-- The platform separator as a one-character string. -/
def sepStr (sep : Char) : String := String.singleton sep

/-- Model of `os.path.join(p, q)` for the relative, non-absolute `q` this program
produces. -/
def pathJoin (sep : Char) (p q : String) : String :=
  if p == "" then q
  else if p.data.getLast? == some sep then p ++ q
  else p ++ sepStr sep ++ q

/-- Model of `os.path.basename(p)`: the part of `p` after the last separator. -/
def basename (sep : Char) (p : String) : String :=
  String.mk ((p.data.reverse.takeWhile (fun c => c != sep)).reverse)

/-- Python's `'\n'.join(lines)`. -/
def joinNl : List String → String
  | [] => ""
  | [s] => s
  | s :: rest => s ++ "\n" ++ joinNl rest

/-- The message of the `NotADirectoryError` that `os.listdir` raises when
handed a path that resolves to a regular file. -/
def notADirMsg (path : String) : String :=
  "[Errno 20] Not a directory: '" ++ path ++ "'"

/-! ### Size lemmas used for termination of the traversals -/

theorem sizeOf_snd_lt_of_mem {p : String × FSTree} {cs : List (String × FSTree)}
    (h : p ∈ cs) : sizeOf p.2 < sizeOf cs := by
  have h1 := List.sizeOf_lt_of_mem h
  cases p with
  | mk a b =>
    simp only [Prod.mk.sizeOf_spec] at h1
    simpa using Nat.lt_of_le_of_lt (by omega) h1

theorem sizeOf_insertByName (x : String × FSTree) (l : List (String × FSTree)) :
    sizeOf (insertByName x l) = 1 + sizeOf x + sizeOf l := by
  induction l with
  | nil => simp [insertByName]
  | cons y ys ih =>
    simp only [insertByName]
    split
    · simp only [List.cons.sizeOf_spec, ih]; omega
    · simp only [List.cons.sizeOf_spec]

theorem sizeOf_sortByName (l : List (String × FSTree)) :
    sizeOf (sortByName l) = sizeOf l := by
  induction l with
  | nil => simp [sortByName]
  | cons x xs ih =>
    simp only [sortByName, sizeOf_insertByName, ih, List.cons.sizeOf_spec]

theorem sizeOf_filter_le (p : String × FSTree → Bool) (l : List (String × FSTree)) :
    sizeOf (l.filter p) ≤ sizeOf l := by
  induction l with
  | nil => simp
  | cons x xs ih =>
    simp only [List.filter]
    split
    · simp only [List.cons.sizeOf_spec]; omega
    · simp only [List.cons.sizeOf_spec]; omega

/-! ### The hierarchy renderer `get_hierarchy` -/

mutual

/-- Model of `get_hierarchy(path, prefix, excludes)`: renders the ASCII tree of the
directory at `path` (modelled by `t`).  A listing failure emits the single
line `Error accessing {path}: {cause}`; otherwise the listing is sorted,
entries whose name contains an exclusion substring are removed, and each
remaining entry is emitted (directories recursively, with the continuation
marker appended to the running line prefix `pre`). -/
def get_hierarchy (sep : Char) (path : String) (t : FSTree) (pre : String)
    (excludes : List String) : String :=
  match t with
  | .badDir cause => "Error accessing " ++ path ++ ": " ++ cause
  | .file _ => "Error accessing " ++ path ++ ": " ++ notADirMsg path
  | .dir children =>
      joinNl (hierLoop sep path pre excludes
        ((sortByName children).filter (fun it => !(anyExcl excludes it.1))).length 0
        ((sortByName children).filter (fun it => !(anyExcl excludes it.1))))
termination_by sizeOf t
decreasing_by
  simp_wf
  have h1 := sizeOf_filter_le (fun it => !(anyExcl excludes it.1)) (sortByName children)
  have h2 := sizeOf_sortByName children
  omega

/-- The `for index, item in enumerate(items)` loop body of `get_hierarchy`:
`n` is `len(items)`, `i` the index of the head of the remaining list. -/
def hierLoop (sep : Char) (path pre : String) (excludes : List String) (n i : Nat) :
    List (String × FSTree) → List String
  | [] => []
  | (name, child) :: rest =>
      if child.isDir then
        (pre ++ "├── " ++ name ++ "/")
          :: get_hierarchy sep (pathJoin sep path name) child (pre ++ "│   ") excludes
          :: hierLoop sep path pre excludes n (i + 1) rest
      else if i = n - 1 then
        (pre ++ "└── " ++ name) :: hierLoop sep path pre excludes n (i + 1) rest
      else
        (pre ++ "├── " ++ name) :: hierLoop sep path pre excludes n (i + 1) rest
termination_by l => sizeOf l

end

/-! ### The walker `get_files_recursive` (`os.walk` based) -/

mutual

/-- Model of `get_files_recursive(path, excludes)`: the `os.walk(path)` loop.  At
each listable directory the subdirectory list is pruned in place
(`dirs[:] = [d for d in dirs if not any(exclude in d ...)]`), the files of
that directory whose names pass the same test are emitted (as their
relative path components), and then the walk descends into each kept
subdirectory in listing order.  A directory whose listing fails is skipped
silently (`os.walk` default `onerror=None`). -/
def get_files_recursive (excludes : List String) (t : FSTree) : List (List String) :=
  match t with
  | .file _ => []
  | .badDir _ => []
  | .dir children =>
      ((children.filter (fun it => !it.2.isDir)).filter
          (fun it => !(anyExcl excludes it.1))).map (fun it => [it.1])
        ++ walkDirs excludes
            ((children.filter (fun it => it.2.isDir)).filter
              (fun it => !(anyExcl excludes it.1)))
termination_by sizeOf t
decreasing_by
  simp_wf
  have h1 := sizeOf_filter_le (fun a => !anyExcl excludes a.1 && a.2.isDir) children
  omega

/-- Descent into the pruned subdirectories, in order; each subtree's
relative paths are re-rooted under the subdirectory's name. -/
def walkDirs (excludes : List String) : List (String × FSTree) → List (List String)
  | [] => []
  | (name, child) :: rest =>
      (get_files_recursive excludes child).map (fun p => name :: p)
        ++ walkDirs excludes rest
termination_by l => sizeOf l

end

/-! ### The set of files the rendered hierarchy displays -/

mutual

/-- The files displayed by `get_hierarchy`, as relative component paths:
this mirrors `get_hierarchy`'s traversal exactly (same sort, same
exclusion filter, same `isdir` branching, same recursion) but collects
the file names instead of emitting text lines. -/
def hierFiles (excludes : List String) (t : FSTree) : List (List String) :=
  match t with
  | .dir children =>
      hierFilesLoop excludes
        ((sortByName children).filter (fun it => !(anyExcl excludes it.1)))
  | .file _ => []
  | .badDir _ => []
termination_by sizeOf t
decreasing_by
  simp_wf
  have h1 := sizeOf_filter_le (fun it => !(anyExcl excludes it.1)) (sortByName children)
  have h2 := sizeOf_sortByName children
  omega

/-- Loop of `hierFiles`, mirroring `hierLoop`: a directory contributes its
recursively displayed files re-rooted under its name, a file contributes
itself. -/
def hierFilesLoop (excludes : List String) : List (String × FSTree) → List (List String)
  | [] => []
  | (name, child) :: rest =>
      (if child.isDir then (hierFiles excludes child).map (fun p => name :: p)
       else [[name]])
        ++ hierFilesLoop excludes rest
termination_by l => sizeOf l

end

/-! ### Every entry the rendered hierarchy displays -/

mutual

/-- Model of every entry `get_hierarchy` displays, directories included,
as relative component paths: this mirrors `hierLoop` exactly (same sort,
same exclusion filter, same `isdir` branching, same recursion) — a
directory entry contributes the path of its own `├── name/` label line
and, re-rooted under its name, every entry its recursive rendering
displays; a file entry contributes the path of its label line. -/
def hierShown (excludes : List String) (t : FSTree) : List (List String) :=
  match t with
  | .dir children =>
      hierShownLoop excludes
        ((sortByName children).filter (fun it => !(anyExcl excludes it.1)))
  | .file _ => []
  | .badDir _ => []
termination_by sizeOf t
decreasing_by
  simp_wf
  have h1 := sizeOf_filter_le (fun it => !(anyExcl excludes it.1)) (sortByName children)
  have h2 := sizeOf_sortByName children
  omega

/-- Loop of `hierShown`, mirroring `hierLoop` entry by entry. -/
def hierShownLoop (excludes : List String) : List (String × FSTree) → List (List String)
  | [] => []
  | (name, child) :: rest =>
      (if child.isDir then [name] :: (hierShown excludes child).map (fun p => name :: p)
       else [[name]])
        ++ hierShownLoop excludes rest
termination_by l => sizeOf l

end

/-- Resolution of a relative component path against the tree, as
`open(os.path.join(path, file))` would resolve it: the result is the
file's readable content, or `none` when the path does not reach a
readable regular file (so `read_file` returns `""`). -/
def resolveFile : FSTree → List String → Option (List String)
  | .file c, [] => c
  | .dir cs, name :: rest =>
      match cs.find? (fun it => it.1 == name) with
      | some it => resolveFile it.2 rest
      | none => none
  | _, _ => none

/-- Model of `get_folder_content(path, excludes)`: the snapshot builder.  Starts
from the root label and rendered hierarchy followed by five newlines, then
the `for file in get_files_recursive(...)` loop appends, per file, the
header (with a literal backslash after the root's basename and the
relative path joined with the platform separator, as `os.path.relpath`
produced it), two newlines, the normalized content and five newlines. -/
def get_folder_content (sep : Char) (path : String) (t : FSTree)
    (excludes : List String) : String :=
  (get_files_recursive excludes t).foldl
    (fun r p =>
      r ++ ("// File: " ++ basename sep path ++ "\\" ++ String.intercalate (sepStr sep) p)
        ++ "\n\n"
        ++ read_file (resolveFile t p)
        ++ "\n\n\n\n\n")
    (basename sep path ++ "/\n" ++ get_hierarchy sep path t "" excludes ++ "\n\n\n\n\n")

/-! ### Spec-side descriptions (for the refinement comparisons) -/

/-- Modelled from the spec, §4.5: the snapshot document layout — root
basename plus `/` and a newline, the rendered hierarchy, five newlines,
then for each walked relative path a `// File:` header (root basename, a
literal backslash, the relative path), two newlines, the normalized
content, and five newlines. -/
def buildSpec (sep : Char) (path : String) (t : FSTree) (excludes : List String) : String :=
  basename sep path ++ "/\n"
    ++ get_hierarchy sep path t "" excludes
    ++ "\n\n\n\n\n"
    ++ String.join ((get_files_recursive excludes t).map (fun p =>
        "// File: " ++ basename sep path ++ "\\" ++ String.intercalate (sepStr sep) p
          ++ "\n\n" ++ read_file (resolveFile t p) ++ "\n\n\n\n\n"))

/-- Append the blocks produced by an indexed emission rule, `i` being the
index of the first element of the list. -/
def flatMapIdx (f : Nat → String × FSTree → List String) : Nat → List (String × FSTree) → List String
  | _, [] => []
  | i, x :: xs => f i x ++ flatMapIdx f (i + 1) xs

/-- Modelled from the spec, §4.3 step 4: what the renderer emits for the
child at position `i` of `n` total — a directory always gets the `├── `
marker, a trailing `/`, and its recursive rendering under the extended
marker `│   `; a file gets `└── ` exactly when it is the last entry of the
whole listing, `├── ` otherwise. -/
def entrySpec (sep : Char) (path pre : String) (excludes : List String) (n : Nat)
    (i : Nat) (it : String × FSTree) : List String :=
  if it.2.isDir then
    [pre ++ "├── " ++ it.1 ++ "/",
     get_hierarchy sep (pathJoin sep path it.1) it.2 (pre ++ "│   ") excludes]
  else if i = n - 1 then [pre ++ "└── " ++ it.1]
  else [pre ++ "├── " ++ it.1]

/-- Modelled from the spec, §4.2: a physical line is dropped exactly when
its whitespace-stripped form is empty or begins with `//`. -/
def dropsLine (line : String) : Bool :=
  pyStrip line == "" || startsList "//".data (pyStrip line).data

/-! ### Blanking failed reads (for the read-failure policy) -/

mutual

/-- Replace every unreadable file of the tree by a readable empty file:
the substitution the builder's failure policy is supposed to amount to. -/
def blankFailed : FSTree → FSTree
  | .file none => .file (some [])
  | .file (some c) => .file (some c)
  | .badDir cause => .badDir cause
  | .dir cs => .dir (blankFailedL cs)

/-- Pointwise `blankFailed` applied to each child of a listing. -/
def blankFailedL : List (String × FSTree) → List (String × FSTree)
  | [] => []
  | (n, c) :: rest => (n, blankFailed c) :: blankFailedL rest

end

/-! ### The exception-aware model (default `excludes=None`)

`get_folder_content` declares `excludes: Optional[List[str]] = None` and
passes it through unchanged.  The exclusion comprehensions iterate
`excludes` each time they evaluate their condition, so with `excludes =
None` the first evaluated condition raises `TypeError: 'NoneType' object
is not iterable`, outside every `try` block of the script.  The
`Except`-threaded definitions below mirror the same code with that raise
made explicit; with `excludes = some es` no step can fail. -/

/-- Message of the `TypeError` raised by `for exclude in excludes` when
`excludes` is `None`. -/
def noneTypeErr : String := "TypeError: 'NoneType' object is not iterable"

/-- The comprehension `[item for item in items if not any(exclude in item for exclude in excludes)]`
with a possibly-`None` `excludes`: the condition is evaluated once per
item and raises on a `None` `excludes`. -/
def filterItemsE (excludes : Option (List String)) :
    List (String × FSTree) → Except String (List (String × FSTree))
  | [] => .ok []
  | it :: rest =>
      match excludes with
      | none => .error noneTypeErr
      | some es =>
          match filterItemsE (some es) rest with
          | .error e => .error e
          | .ok r => .ok (if anyExcl es it.1 then r else it :: r)

theorem sizeOf_filterItemsE_le {excludes : Option (List String)}
    {l items : List (String × FSTree)} (h : filterItemsE excludes l = .ok items) :
    sizeOf items ≤ sizeOf l := by
  induction l generalizing items with
  | nil =>
    simp only [filterItemsE] at h
    cases h
    exact Nat.le_refl _
  | cons it rest ih =>
    match excludes with
    | none => simp [filterItemsE] at h
    | some es =>
      simp only [filterItemsE] at h
      cases hr : filterItemsE (some es) rest with
      | error e => rw [hr] at h; cases h
      | ok r =>
        rw [hr] at h
        have hrest := ih hr
        cases h
        split <;> simp only [List.cons.sizeOf_spec] <;> omega

mutual

/-- Model of `get_hierarchy` with a possibly-`None` `excludes`: only the filtering
comprehension (evaluated after the `try` around `os.listdir`) can raise,
and the raise propagates out of every enclosing recursive call. -/
def get_hierarchyE (sep : Char) (path : String) (t : FSTree) (pre : String)
    (excludes : Option (List String)) : Except String String :=
  match t with
  | .badDir cause => .ok ("Error accessing " ++ path ++ ": " ++ cause)
  | .file _ => .ok ("Error accessing " ++ path ++ ": " ++ notADirMsg path)
  | .dir children =>
      match h : filterItemsE excludes (sortByName children) with
      | .error e => .error e
      | .ok items =>
          match hierLoopE sep path pre excludes items.length 0 items with
          | .error e => .error e
          | .ok lines => .ok (joinNl lines)
termination_by sizeOf t
decreasing_by
  simp_wf
  have h1 := sizeOf_filterItemsE_le h
  have h2 := sizeOf_sortByName children
  omega

/-- Loop of `get_hierarchyE`, mirroring `hierLoop` with exception
propagation. -/
def hierLoopE (sep : Char) (path pre : String) (excludes : Option (List String))
    (n i : Nat) : List (String × FSTree) → Except String (List String)
  | [] => .ok []
  | (name, child) :: rest =>
      if child.isDir then
        match get_hierarchyE sep (pathJoin sep path name) child (pre ++ "│   ") excludes with
        | .error e => .error e
        | .ok sub =>
            match hierLoopE sep path pre excludes n (i + 1) rest with
            | .error e => .error e
            | .ok ls => .ok ((pre ++ "├── " ++ name ++ "/") :: sub :: ls)
      else if i = n - 1 then
        match hierLoopE sep path pre excludes n (i + 1) rest with
        | .error e => .error e
        | .ok ls => .ok ((pre ++ "└── " ++ name) :: ls)
      else
        match hierLoopE sep path pre excludes n (i + 1) rest with
        | .error e => .error e
        | .ok ls => .ok ((pre ++ "├── " ++ name) :: ls)
termination_by l => sizeOf l

end

/-- The file loop of `os.walk`'s body,
`for file in files: if not any(exclude in file for exclude in excludes)`:
evaluated once per file, raising on a `None` `excludes`. -/
def filterFilesE (excludes : Option (List String)) :
    List (String × FSTree) → Except String (List String)
  | [] => .ok []
  | it :: rest =>
      match excludes with
      | none => .error noneTypeErr
      | some es =>
          match filterFilesE (some es) rest with
          | .error e => .error e
          | .ok r => .ok (if anyExcl es it.1 then r else it.1 :: r)

theorem sizeOf_keptDirs_le {excludes : Option (List String)}
    {children keptDirs : List (String × FSTree)}
    (h : filterItemsE excludes (children.filter (fun it => it.2.isDir)) = .ok keptDirs) :
    sizeOf keptDirs ≤ sizeOf children :=
  Nat.le_trans (sizeOf_filterItemsE_le h) (sizeOf_filter_le _ children)

mutual

/-- Model of `get_files_recursive` with a possibly-`None` `excludes`: per walked
directory, the pruning comprehension runs first, then the per-file test
loop, then the descent into the kept subdirectories. -/
def get_files_recursiveE (excludes : Option (List String)) (t : FSTree) :
    Except String (List (List String)) :=
  match t with
  | .file _ => .ok []
  | .badDir _ => .ok []
  | .dir children =>
      match h : filterItemsE excludes (children.filter (fun it => it.2.isDir)) with
      | .error e => .error e
      | .ok keptDirs =>
          match filterFilesE excludes (children.filter (fun it => !it.2.isDir)) with
          | .error e => .error e
          | .ok keptFiles =>
              match walkDirsE excludes keptDirs with
              | .error e => .error e
              | .ok sub => .ok (keptFiles.map (fun f => [f]) ++ sub)
termination_by sizeOf t
decreasing_by
  simp_wf
  have h1 := sizeOf_keptDirs_le h
  omega

/-- Descent loop of `get_files_recursiveE`. -/
def walkDirsE (excludes : Option (List String)) :
    List (String × FSTree) → Except String (List (List String))
  | [] => .ok []
  | (name, child) :: rest =>
      match get_files_recursiveE excludes child with
      | .error e => .error e
      | .ok sub =>
          match walkDirsE excludes rest with
          | .error e => .error e
          | .ok more => .ok (sub.map (fun p => name :: p) ++ more)
termination_by l => sizeOf l

end

/-- Model of `get_folder_content(path, excludes)` with `excludes` as the function
receives it (its declared default being `None`): the hierarchy is rendered
first, then the walk runs, then the document is assembled; an uncaught
`TypeError` from either step propagates to the caller. -/
def get_folder_contentE (sep : Char) (path : String) (t : FSTree)
    (excludes : Option (List String)) : Except String String :=
  match get_hierarchyE sep path t "" excludes with
  | .error e => .error e
  | .ok hier =>
      match get_files_recursiveE excludes t with
      | .error e => .error e
      | .ok files =>
          .ok (files.foldl
            (fun r p =>
              r ++ ("// File: " ++ basename sep path ++ "\\" ++ String.intercalate (sepStr sep) p)
                ++ "\n\n" ++ read_file (resolveFile t p) ++ "\n\n\n\n\n")
            (basename sep path ++ "/\n" ++ hier ++ "\n\n\n\n\n"))

/-! ### General helpers -/

theorem strAppend_empty (s : String) : s ++ "" = s := by
  apply String.ext
  simp [String.data_append]

theorem strEmpty_append (s : String) : "" ++ s = s := by
  apply String.ext
  simp [String.data_append]

theorem strJoin_nil : String.join ([] : List String) = "" := rfl

theorem strFoldl_append (a : String) (xs : List String) :
    xs.foldl (· ++ ·) a = a ++ String.join xs := by
  induction xs generalizing a with
  | nil => simp [String.join, strAppend_empty]
  | cons x xs ih =>
    show xs.foldl (· ++ ·) (a ++ x) = _
    rw [ih]
    show _ = a ++ ((x :: xs).foldl (· ++ ·) "")
    show _ = a ++ (xs.foldl (· ++ ·) ("" ++ x))
    rw [ih ("" ++ x), strEmpty_append, String.append_assoc]

theorem strJoin_cons (x : String) (xs : List String) :
    String.join (x :: xs) = x ++ String.join xs := by
  show (x :: xs).foldl (· ++ ·) "" = _
  show xs.foldl (· ++ ·) ("" ++ x) = _
  rw [strFoldl_append, strEmpty_append]

/-- Structural induction over `FSTree` through the nested children lists. -/
theorem FSTree.indOn {P : FSTree → Prop}
    (hf : ∀ c, P (.file c)) (hb : ∀ s, P (.badDir s))
    (hd : ∀ cs, (∀ p ∈ cs, P p.2) → P (.dir cs)) : ∀ t, P t
  | .file c => hf c
  | .badDir s => hb s
  | .dir cs => hd cs (fun p hp => FSTree.indOn hf hb hd p.2)
termination_by t => sizeOf t
decreasing_by
  simp_wf
  have := sizeOf_snd_lt_of_mem hp
  omega

theorem mem_insertByName {x y : String × FSTree} {l : List (String × FSTree)} :
    y ∈ insertByName x l ↔ y = x ∨ y ∈ l := by
  induction l with
  | nil => simp [insertByName]
  | cons z zs ih =>
    simp only [insertByName]
    split
    · simp only [List.mem_cons, ih]
      tauto
    · simp only [List.mem_cons]

theorem mem_sortByName {y : String × FSTree} {l : List (String × FSTree)} :
    y ∈ sortByName l ↔ y ∈ l := by
  induction l with
  | nil => simp [sortByName]
  | cons x xs ih => simp [sortByName, mem_insertByName, ih]

theorem insertByName_ne_nil (x : String × FSTree) (l : List (String × FSTree)) :
    insertByName x l ≠ [] := by
  cases l with
  | nil => simp [insertByName]
  | cons z zs =>
    simp only [insertByName]
    split <;> simp

theorem build_fold_eq (sep : Char) (path : String) (t : FSTree)
    (l : List (List String)) (init : String) :
    l.foldl
      (fun r p =>
        r ++ ("// File: " ++ basename sep path ++ "\\" ++ String.intercalate (sepStr sep) p)
          ++ "\n\n" ++ read_file (resolveFile t p) ++ "\n\n\n\n\n")
      init
    = init ++ String.join (l.map (fun p =>
        "// File: " ++ basename sep path ++ "\\" ++ String.intercalate (sepStr sep) p
          ++ "\n\n" ++ read_file (resolveFile t p) ++ "\n\n\n\n\n")) := by
  induction l generalizing init with
  | nil => simp [strJoin_nil, strAppend_empty]
  | cons x xs ih =>
    rw [List.foldl_cons, ih, List.map_cons, strJoin_cons]
    simp [String.append_assoc]

/-! ### Claims -/

/-- C1: for every root, tree and exclusion sequence, `get_folder_content`
returns exactly the §4.5 layout: the root's basename plus `/` and a
newline, the rendered hierarchy, five newlines, then for each walked
relative path, in walk order, the `// File:` header (root basename, a
literal backslash, the relative path), two newlines, the file's
normalized content and five newlines. -/
theorem C1_build_layout (sep : Char) (path : String) (t : FSTree) (excludes : List String) :
    get_folder_content sep path t excludes = buildSpec sep path t excludes := by
  unfold get_folder_content buildSpec
  rw [build_fold_eq]

/-- C5: `read_file` drops a physical line exactly when its
whitespace-stripped form is empty or begins with `//`, keeping all other
lines verbatim (original form and terminator) in order; on the spec's
six-line example it yields exactly the two surviving lines. -/
theorem C5_read_file_normalizes :
    (∀ lines : List String,
      read_file (some lines)
        = String.join (lines.filter (fun line => !(dropsLine line))))
    ∧ read_file (some ["\n", "  \n", "// comment\n", "code();\n", "  // x\n", "more;\n"])
        = "code();\nmore;\n" := by
  constructor
  · intro lines
    simp [read_file, dropsLine]
  · rfl

/-- C6: a directory whose listing fails is rendered as the single line
`Error accessing {path}: {cause}`; when the root itself fails, the built
document is the root label, that line and the five-newline separator with
zero file blocks; and a failing subdirectory terminates only its own
branch (its sibling is still rendered). -/
theorem C6_listing_failure :
    (∀ (sep : Char) (path cause pre : String) (excludes : List String),
      get_hierarchy sep path (.badDir cause) pre excludes
        = "Error accessing " ++ path ++ ": " ++ cause)
    ∧ (∀ (sep : Char) (path cause : String) (excludes : List String),
      get_folder_content sep path (.badDir cause) excludes
        = basename sep path ++ "/\n" ++ ("Error accessing " ++ path ++ ": " ++ cause)
            ++ "\n\n\n\n\n")
    ∧ get_hierarchy '/' "r" (.dir [("bad", .badDir "EPERM"), ("z.txt", .file (some []))]) "" []
        = "├── bad/\nError accessing r/bad: EPERM\n└── z.txt" := by
  refine ⟨?_, ?_, ?_⟩
  · intro sep path cause pre excludes
    simp [get_hierarchy]
  · intro sep path cause excludes
    simp [get_folder_content, get_files_recursive, get_hierarchy, String.append_assoc]
  · simp [get_hierarchy, hierLoop, sortByName, insertByName, anyExcl, joinNl, pyLt,
      pathJoin, sepStr, FSTree.isDir]
    rfl

theorem get_hierarchyE_dir_error {sep : Char} {path pre : String}
    {children : List (String × FSTree)} {excl : Option (List String)} {e : String}
    (h : filterItemsE excl (sortByName children) = .error e) :
    get_hierarchyE sep path (.dir children) pre excl = .error e := by
  simp only [get_hierarchyE]
  split
  · next e' heq => rw [h] at heq; cases heq; rfl
  · next items heq => rw [h] at heq; cases heq

theorem get_folder_contentE_hier_error {sep : Char} {path : String} {t : FSTree}
    {excl : Option (List String)} {e : String}
    (h : get_hierarchyE sep path t "" excl = .error e) :
    get_folder_contentE sep path t excl = .error e := by
  unfold get_folder_contentE
  rw [h]

theorem walkE_nil (excl : Option (List String)) :
    get_files_recursiveE excl (.dir []) = .ok [] := by
  simp only [get_files_recursiveE]
  split
  · next e heq => simp [filterItemsE] at heq
  · next keptDirs heq =>
    simp only [List.filter_nil, filterItemsE] at heq
    cases heq
    simp [filterFilesE, walkDirsE]

/-- C10: calling the builder with its default `excludes=None` raises an
uncaught `TypeError` exactly when the root lists successfully and has at
least one entry (the first evaluation of the exclusion condition iterates
`None`); with an empty listable root, and with an unlistable root, the
default-argument call still completes normally. -/
theorem C10_default_none_raises :
    (∀ (sep : Char) (path : String) (hd : String × FSTree) (rest : List (String × FSTree)),
      get_folder_contentE sep path (.dir (hd :: rest)) none = .error noneTypeErr)
    ∧ (∀ (sep : Char) (path : String),
      get_folder_contentE sep path (.dir []) none
        = .ok (basename sep path ++ "/\n" ++ "\n\n\n\n\n"))
    ∧ (∀ (sep : Char) (path cause : String),
      get_folder_contentE sep path (.badDir cause) none
        = .ok (basename sep path ++ "/\n"
            ++ ("Error accessing " ++ path ++ ": " ++ cause) ++ "\n\n\n\n\n")) := by
  refine ⟨?_, ?_, ?_⟩
  · intro sep path hd rest
    apply get_folder_contentE_hier_error
    apply get_hierarchyE_dir_error
    cases hsort : sortByName (hd :: rest) with
    | nil =>
      exfalso
      apply insertByName_ne_nil hd (sortByName rest)
      simpa [sortByName] using hsort
    | cons y ys => simp [filterItemsE]
  · intro sep path
    have hh : get_hierarchyE sep path (.dir []) "" none = .ok "" := by
      simp only [get_hierarchyE]
      split
      · next e heq => simp [sortByName, filterItemsE] at heq
      · next items heq =>
        simp only [sortByName, filterItemsE] at heq
        cases heq
        simp [hierLoopE, joinNl]
    unfold get_folder_contentE
    rw [hh, walkE_nil]
    simp [strAppend_empty]
  · intro sep path cause
    unfold get_folder_contentE
    simp [get_hierarchyE, get_files_recursiveE]

theorem hierLoop_eq (sep : Char) (path pre : String) (excludes : List String) (n : Nat) :
    ∀ (l : List (String × FSTree)) (i : Nat),
      hierLoop sep path pre excludes n i l
        = flatMapIdx (entrySpec sep path pre excludes n) i l := by
  intro l
  induction l with
  | nil => intro i; simp [hierLoop, flatMapIdx]
  | cons x xs ih =>
    intro i
    cases x with
    | mk name child =>
      simp only [hierLoop, flatMapIdx, entrySpec]
      by_cases hd : child.isDir
      · simp [hd, ih]
      · by_cases hi : i = n - 1 <;> simp [hd, hi, ih]

/-- C2: the renderer's per-entry emission follows the §4.3 rule — every
subdirectory gets the `├── ` marker, a trailing `/` and a recursive
rendering under `pre ++ "│   "` regardless of position, and a file gets
`└── ` exactly when it is the last entry of the whole filtered sorted
listing; in particular a directory holding subdirectory `a` and file
`b.txt` marks `a/` with `├──` and `b.txt` with `└──`. -/
theorem C2_marker_rule :
    (∀ (sep : Char) (path pre : String) (excludes : List String)
        (children : List (String × FSTree)),
      get_hierarchy sep path (.dir children) pre excludes
        = joinNl (flatMapIdx
            (entrySpec sep path pre excludes
              ((sortByName children).filter (fun it => !(anyExcl excludes it.1))).length)
            0 ((sortByName children).filter (fun it => !(anyExcl excludes it.1)))))
    ∧ get_hierarchy '/' "r"
        (.dir [("a", .dir [("c", .file (some []))]), ("b.txt", .file (some []))]) "" []
        = "├── a/\n│   └── c\n└── b.txt" := by
  constructor
  · intro sep path pre excludes children
    simp only [get_hierarchy]
    rw [hierLoop_eq]
  · simp [get_hierarchy, hierLoop, sortByName, insertByName, anyExcl, joinNl, pyLt,
      pathJoin, sepStr, FSTree.isDir]

theorem flatMapIdx_append (f : Nat → String × FSTree → List String) :
    ∀ (l1 l2 : List (String × FSTree)) (i : Nat),
      flatMapIdx f i (l1 ++ l2) = flatMapIdx f i l1 ++ flatMapIdx f (i + l1.length) l2 := by
  intro l1
  induction l1 with
  | nil => intro l2 i; simp [flatMapIdx]
  | cons x xs ih =>
    intro l2 i
    rw [List.cons_append]
    simp only [flatMapIdx]
    rw [ih, List.length_cons, List.append_assoc]
    have hn : i + 1 + xs.length = i + (xs.length + 1) := by omega
    rw [hn]

theorem joinNl_last (s : String) (hs : s.data ≠ []) :
    ∀ l : List String, (joinNl (l ++ [s])).data.getLast? = s.data.getLast? := by
  intro l
  induction l with
  | nil => simp [joinNl]
  | cons x rest ih =>
    have hJ : (joinNl (rest ++ [s])).data ≠ [] := by
      intro hnil
      have h2 := ih
      rw [hnil] at h2
      have h3 : s.data.getLast? = none := h2.symm
      rw [List.getLast?_eq_none_iff] at h3
      exact hs h3
    have h1 : joinNl (x :: rest ++ [s]) = x ++ "\n" ++ joinNl (rest ++ [s]) := by
      rw [List.cons_append]
      cases hr : rest ++ [s] with
      | nil => simp at hr
      | cons y ys => simp [joinNl, hr]
    rw [h1, String.data_append]
    rw [List.getLast?_append_of_ne_nil _ hJ]
    exact ih

theorem marker_line_last (pre m name : String) (hm : m.data.getLast? = some ' ')
    (hmne : m.data ≠ []) (hname : name.data.getLast? ≠ some '\n') :
    ((pre ++ m ++ name).data.getLast? ≠ some '\n') ∧ (pre ++ m ++ name).data ≠ [] := by
  constructor
  · rw [String.data_append, String.data_append]
    cases hn : name.data with
    | nil =>
      rw [List.append_nil, List.getLast?_append_of_ne_nil _ hmne, hm]
      simp
    | cons c cs =>
      have hne : name.data ≠ [] := by simp [hn]
      rw [← hn, List.getLast?_append_of_ne_nil _ hne]
      exact hname
  · simp [String.data_append, hmne]

/-- C9, counterexample: a directory whose only entry is an empty
subdirectory renders to `"├── a/\n"` — the empty recursive rendering is
still an entry of the joined list, so the rendered block does end with a
newline character, contradicting the claimed no-trailing-newline
guarantee. -/
theorem C9_cex_trailing_newline :
    (get_hierarchy '/' "r" (FSTree.dir [("a", FSTree.dir [])]) "" []).data.getLast?
      = some '\n' := by
  simp [get_hierarchy, hierLoop, sortByName, insertByName, anyExcl, joinNl,
    pathJoin, sepStr, FSTree.isDir]

/-- C9, amended: the rendered block carries no trailing newline whenever
the last entry of the directory's filtered, sorted listing is a file
(whose name does not itself end in a newline character); when the last
entry is a directory whose recursive rendering is empty, the block does
end with a newline, as the counterexample shows. -/
theorem C9_no_trailing_newline_for_file_last (sep : Char) (path pre : String)
    (excludes : List String) (children : List (String × FSTree)) (name : String)
    (content : Option (List String))
    (hlast : ((sortByName children).filter (fun it => !(anyExcl excludes it.1))).getLast?
        = some (name, .file content))
    (hname : name.data.getLast? ≠ some '\n') :
    (get_hierarchy sep path (.dir children) pre excludes).data.getLast? ≠ some '\n' := by
  obtain ⟨l1, hsplit⟩ : ∃ l1,
      (sortByName children).filter (fun it => !(anyExcl excludes it.1))
        = l1 ++ [(name, .file content)] := by
    rcases List.eq_nil_or_concat
        ((sortByName children).filter (fun it => !(anyExcl excludes it.1)))
      with hnil | ⟨l1, a, hcat⟩
    · rw [hnil] at hlast; simp at hlast
    · rw [List.concat_eq_append] at hcat
      rw [hcat, List.getLast?_concat] at hlast
      cases hlast
      exact ⟨l1, hcat⟩
  simp only [get_hierarchy]
  rw [hierLoop_eq, hsplit, flatMapIdx_append]
  simp only [flatMapIdx, entrySpec, FSTree.isDir, Bool.false_eq_true, if_false,
    List.append_nil]
  split
  · have h := marker_line_last pre "└── " name (by decide) (by decide) hname
    rw [joinNl_last _ h.2]
    exact h.1
  · have h := marker_line_last pre "├── " name (by decide) (by decide) hname
    rw [joinNl_last _ h.2]
    exact h.1

/-- C9, witness: the amended theorem applied to a directory holding the
single file `b.txt`. -/
theorem C9_witness :
    (get_hierarchy '/' "r" (FSTree.dir [("b.txt", FSTree.file (some []))]) "" []).data.getLast?
      ≠ some '\n' :=
  C9_no_trailing_newline_for_file_last '/' "r" "" [] [("b.txt", FSTree.file (some []))]
    "b.txt" (some []) (by rfl) (by decide)

/-- C8, counterexample: on a platform whose separator is `/`, the built
document for the spec's scenario does not contain `a\x.txt` anywhere —
the separator inside the relative path is the platform separator
(`os.path.relpath`), so the header reads `proj\a/x.txt` there; only the
backslash directly after the root basename is literal. -/
theorem C8_cex_backslash_not_universal :
    pyIn "a\\x.txt"
      (get_folder_content '/' "proj"
        (FSTree.dir [("a", FSTree.dir [("x.txt", FSTree.file (some ["hello\n"]))]),
                     ("skip", FSTree.dir [("y.txt", FSTree.file (some ["y\n"]))])])
        ["skip"]) = false := by
  have h : get_folder_content '/' "proj"
      (FSTree.dir [("a", FSTree.dir [("x.txt", FSTree.file (some ["hello\n"]))]),
                   ("skip", FSTree.dir [("y.txt", FSTree.file (some ["y\n"]))])])
      ["skip"]
    = "proj/\n├── a/\n│   └── x.txt\n\n\n\n\n// File: proj\\a/x.txt\n\nhello\n\n\n\n\n\n" := by
    simp [get_folder_content, get_hierarchy, hierLoop, get_files_recursive, walkDirs,
      sortByName, insertByName, anyExcl, pyIn, containsList, startsList, joinNl, pyLt,
      pathJoin, sepStr, basename, FSTree.isDir, resolveFile, read_file, pyStrip, pyWS]
    rfl
  rw [h]
  decide

/-- C8, amended: for the scenario (root `proj` with `a/x.txt` containing
`hello\n` and `skip/y.txt`, exclusions `["skip"]`) the document is exactly
the root label, a hierarchy showing `a/` with `x.txt` under it and no
`skip` entry, and one single file block for `x.txt` with content
`hello\n` and no block for `y.txt`; the backslash directly after the root
basename is literal on every platform, while the separator inside the
relative path is the platform's: the header names `proj\a\x.txt` on a
backslash-separator platform and `proj\a/x.txt` on a slash-separator
platform. -/
theorem C8_scenario :
    (get_folder_content '\\' "proj"
      (FSTree.dir [("a", FSTree.dir [("x.txt", FSTree.file (some ["hello\n"]))]),
                   ("skip", FSTree.dir [("y.txt", FSTree.file (some ["y\n"]))])])
      ["skip"]
    = "proj/\n├── a/\n│   └── x.txt\n\n\n\n\n// File: proj\\a\\x.txt\n\nhello\n\n\n\n\n\n")
    ∧ (get_folder_content '/' "proj"
      (FSTree.dir [("a", FSTree.dir [("x.txt", FSTree.file (some ["hello\n"]))]),
                   ("skip", FSTree.dir [("y.txt", FSTree.file (some ["y\n"]))])])
      ["skip"]
    = "proj/\n├── a/\n│   └── x.txt\n\n\n\n\n// File: proj\\a/x.txt\n\nhello\n\n\n\n\n\n") := by
  constructor
  · simp [get_folder_content, get_hierarchy, hierLoop, get_files_recursive, walkDirs,
      sortByName, insertByName, anyExcl, pyIn, containsList, startsList, joinNl, pyLt,
      pathJoin, sepStr, basename, FSTree.isDir, resolveFile, read_file, pyStrip, pyWS]
    rfl
  · simp [get_folder_content, get_hierarchy, hierLoop, get_files_recursive, walkDirs,
      sortByName, insertByName, anyExcl, pyIn, containsList, startsList, joinNl, pyLt,
      pathJoin, sepStr, basename, FSTree.isDir, resolveFile, read_file, pyStrip, pyWS]
    rfl

theorem mem_walkDirs {excludes : List String} {l : List (String × FSTree)} {p : List String} :
    p ∈ walkDirs excludes l
      ↔ ∃ x, x ∈ l ∧ ∃ q, q ∈ get_files_recursive excludes x.2 ∧ p = x.1 :: q := by
  induction l with
  | nil => simp [walkDirs]
  | cons x xs ih =>
    obtain ⟨name, child⟩ := x
    simp only [walkDirs, List.mem_append, List.mem_map, ih, List.mem_cons]
    constructor
    · rintro (⟨q, hq, rfl⟩ | ⟨y, hy, q, hq, rfl⟩)
      · exact ⟨(name, child), Or.inl rfl, q, hq, rfl⟩
      · exact ⟨y, Or.inr hy, q, hq, rfl⟩
    · rintro ⟨y, (rfl | hy), q, hq, rfl⟩
      · exact Or.inl ⟨q, hq, rfl⟩
      · exact Or.inr ⟨y, hy, q, hq, rfl⟩

theorem mem_walk_dir {excludes : List String} {children : List (String × FSTree)}
    {p : List String} :
    p ∈ get_files_recursive excludes (.dir children)
      ↔ (∃ x, x ∈ children ∧ x.2.isDir = false ∧ anyExcl excludes x.1 = false ∧ p = [x.1])
        ∨ (∃ x, x ∈ children ∧ x.2.isDir = true ∧ anyExcl excludes x.1 = false
            ∧ ∃ q, q ∈ get_files_recursive excludes x.2 ∧ p = x.1 :: q) := by
  simp only [get_files_recursive, List.mem_append, List.mem_map, List.mem_filter,
    mem_walkDirs, Bool.not_eq_true']
  constructor
  · rintro (⟨x, ⟨⟨hx, hdir⟩, hexcl⟩, rfl⟩ | ⟨x, ⟨⟨hx, hdir⟩, hexcl⟩, q, hq, rfl⟩)
    · exact Or.inl ⟨x, hx, hdir, hexcl, rfl⟩
    · exact Or.inr ⟨x, hx, hdir, hexcl, q, hq, rfl⟩
  · rintro (⟨x, hx, hdir, hexcl, rfl⟩ | ⟨x, hx, hdir, hexcl, q, hq, rfl⟩)
    · exact Or.inl ⟨x, ⟨⟨hx, hdir⟩, hexcl⟩, rfl⟩
    · exact Or.inr ⟨x, ⟨⟨hx, hdir⟩, hexcl⟩, q, hq, rfl⟩

theorem mem_hierFilesLoop {excludes : List String} {l : List (String × FSTree)}
    {p : List String} :
    p ∈ hierFilesLoop excludes l
      ↔ ∃ x, x ∈ l ∧ ((x.2.isDir = true ∧ ∃ q, q ∈ hierFiles excludes x.2 ∧ p = x.1 :: q)
                      ∨ (x.2.isDir = false ∧ p = [x.1])) := by
  induction l with
  | nil => simp [hierFilesLoop]
  | cons x xs ih =>
    obtain ⟨name, child⟩ := x
    simp only [hierFilesLoop]
    by_cases hd : child.isDir = true
    · rw [if_pos hd]
      simp only [List.mem_append, List.mem_map, ih, List.mem_cons]
      constructor
      · rintro (⟨q, hq, rfl⟩ | ⟨y, hy, hc⟩)
        · exact ⟨(name, child), Or.inl rfl, Or.inl ⟨hd, q, hq, rfl⟩⟩
        · exact ⟨y, Or.inr hy, hc⟩
      · rintro ⟨y, (rfl | hy), hc⟩
        · rcases hc with ⟨_, q, hq, rfl⟩ | ⟨hfalse, _⟩
          · exact Or.inl ⟨q, hq, rfl⟩
          · rw [hd] at hfalse; cases hfalse
        · exact Or.inr ⟨y, hy, hc⟩
    · rw [if_neg hd]
      have hd' : child.isDir = false := by
        cases hcd : child.isDir
        · rfl
        · exact absurd hcd hd
      simp only [List.singleton_append, List.mem_cons, ih]
      constructor
      · rintro (rfl | ⟨y, hy, hc⟩)
        · exact ⟨(name, child), Or.inl rfl, Or.inr ⟨hd', rfl⟩⟩
        · exact ⟨y, Or.inr hy, hc⟩
      · rintro ⟨y, (rfl | hy), hc⟩
        · rcases hc with ⟨htrue, _, _, _⟩ | ⟨_, rfl⟩
          · rw [hd'] at htrue; cases htrue
          · exact Or.inl rfl
        · exact Or.inr ⟨y, hy, hc⟩

theorem mem_hier_dir {excludes : List String} {children : List (String × FSTree)}
    {p : List String} :
    p ∈ hierFiles excludes (.dir children)
      ↔ (∃ x, x ∈ children ∧ x.2.isDir = false ∧ anyExcl excludes x.1 = false ∧ p = [x.1])
        ∨ (∃ x, x ∈ children ∧ x.2.isDir = true ∧ anyExcl excludes x.1 = false
            ∧ ∃ q, q ∈ hierFiles excludes x.2 ∧ p = x.1 :: q) := by
  simp only [hierFiles, mem_hierFilesLoop, List.mem_filter, mem_sortByName,
    Bool.not_eq_true']
  constructor
  · rintro ⟨x, ⟨hx, hexcl⟩, (⟨hdir, q, hq, rfl⟩ | ⟨hdir, rfl⟩)⟩
    · exact Or.inr ⟨x, hx, hdir, hexcl, q, hq, rfl⟩
    · exact Or.inl ⟨x, hx, hdir, hexcl, rfl⟩
  · rintro (⟨x, hx, hdir, hexcl, rfl⟩ | ⟨x, hx, hdir, hexcl, q, hq, rfl⟩)
    · exact ⟨x, ⟨hx, hexcl⟩, Or.inr ⟨hdir, rfl⟩⟩
    · exact ⟨x, ⟨hx, hexcl⟩, Or.inl ⟨hdir, q, hq, rfl⟩⟩

/-- C3: the set of files the rendered hierarchy displays equals the set of
files the walker returns, as root-relative paths: both traversals apply
the same substring-exclusion policy to directory and file names, so for
every tree, exclusion list and path, membership coincides. -/
theorem C3_renderer_walker_agree : ∀ (excludes : List String) (t : FSTree) (p : List String),
    p ∈ get_files_recursive excludes t ↔ p ∈ hierFiles excludes t := by
  intro excludes t
  induction t using FSTree.indOn with
  | hf c => intro p; simp [get_files_recursive, hierFiles]
  | hb s => intro p; simp [get_files_recursive, hierFiles]
  | hd cs ih =>
    intro p
    rw [mem_walk_dir, mem_hier_dir]
    constructor
    · rintro (⟨x, hx, hdir, hexcl, rfl⟩ | ⟨x, hx, hdir, hexcl, q, hq, rfl⟩)
      · exact Or.inl ⟨x, hx, hdir, hexcl, rfl⟩
      · exact Or.inr ⟨x, hx, hdir, hexcl, q, (ih x hx q).mp hq, rfl⟩
    · rintro (⟨x, hx, hdir, hexcl, rfl⟩ | ⟨x, hx, hdir, hexcl, q, hq, rfl⟩)
      · exact Or.inl ⟨x, hx, hdir, hexcl, rfl⟩
      · exact Or.inr ⟨x, hx, hdir, hexcl, q, (ih x hx q).mpr hq, rfl⟩

theorem walk_comps_clean : ∀ (excludes : List String) (t : FSTree) (p : List String),
    p ∈ get_files_recursive excludes t → ∀ c ∈ p, anyExcl excludes c = false := by
  intro excludes t
  induction t using FSTree.indOn with
  | hf c => intro p hp; simp [get_files_recursive] at hp
  | hb s => intro p hp; simp [get_files_recursive] at hp
  | hd cs ih =>
    intro p hp
    rw [mem_walk_dir] at hp
    rcases hp with ⟨x, _, _, hexcl, rfl⟩ | ⟨x, hx, _, hexcl, q, hq, rfl⟩
    · intro c hc
      rcases List.mem_singleton.mp hc with rfl
      exact hexcl
    · intro c hc
      rcases List.mem_cons.mp hc with rfl | hcq
      · exact hexcl
      · exact ih x hx q hq c hcq

theorem hier_comps_clean : ∀ (excludes : List String) (t : FSTree) (p : List String),
    p ∈ hierFiles excludes t → ∀ c ∈ p, anyExcl excludes c = false := by
  intro excludes t
  induction t using FSTree.indOn with
  | hf c => intro p hp; simp [hierFiles] at hp
  | hb s => intro p hp; simp [hierFiles] at hp
  | hd cs ih =>
    intro p hp
    rw [mem_hier_dir] at hp
    rcases hp with ⟨x, _, _, hexcl, rfl⟩ | ⟨x, hx, _, hexcl, q, hq, rfl⟩
    · intro c hc
      rcases List.mem_singleton.mp hc with rfl
      exact hexcl
    · intro c hc
      rcases List.mem_cons.mp hc with rfl | hcq
      · exact hexcl
      · exact ih x hx q hq c hcq

theorem mem_hierShownLoop {excludes : List String} {l : List (String × FSTree)}
    {p : List String} :
    p ∈ hierShownLoop excludes l
      ↔ ∃ x, x ∈ l ∧
        ((x.2.isDir = true
            ∧ (p = [x.1] ∨ ∃ q, q ∈ hierShown excludes x.2 ∧ p = x.1 :: q))
          ∨ (x.2.isDir = false ∧ p = [x.1])) := by
  induction l with
  | nil => simp [hierShownLoop]
  | cons x xs ih =>
    obtain ⟨name, child⟩ := x
    simp only [hierShownLoop]
    by_cases hd : child.isDir = true
    · rw [if_pos hd]
      simp only [List.cons_append, List.mem_cons, List.mem_append, List.mem_map, ih]
      constructor
      · rintro (rfl | (⟨q, hq, rfl⟩ | ⟨y, hy, hc⟩))
        · exact ⟨(name, child), Or.inl rfl, Or.inl ⟨hd, Or.inl rfl⟩⟩
        · exact ⟨(name, child), Or.inl rfl, Or.inl ⟨hd, Or.inr ⟨q, hq, rfl⟩⟩⟩
        · exact ⟨y, Or.inr hy, hc⟩
      · rintro ⟨y, (rfl | hy), hc⟩
        · rcases hc with ⟨_, (rfl | ⟨q, hq, rfl⟩)⟩ | ⟨hfalse, _⟩
          · exact Or.inl rfl
          · exact Or.inr (Or.inl ⟨q, hq, rfl⟩)
          · rw [hd] at hfalse; cases hfalse
        · exact Or.inr (Or.inr ⟨y, hy, hc⟩)
    · rw [if_neg hd]
      have hd' : child.isDir = false := by
        cases hcd : child.isDir
        · rfl
        · exact absurd hcd hd
      simp only [List.singleton_append, List.mem_cons, ih]
      constructor
      · rintro (rfl | ⟨y, hy, hc⟩)
        · exact ⟨(name, child), Or.inl rfl, Or.inr ⟨hd', rfl⟩⟩
        · exact ⟨y, Or.inr hy, hc⟩
      · rintro ⟨y, (rfl | hy), hc⟩
        · rcases hc with ⟨htrue, _⟩ | ⟨_, rfl⟩
          · rw [hd'] at htrue; cases htrue
          · exact Or.inl rfl
        · exact Or.inr ⟨y, hy, hc⟩

theorem mem_hierShown_dir {excludes : List String} {children : List (String × FSTree)}
    {p : List String} :
    p ∈ hierShown excludes (.dir children)
      ↔ ∃ x, x ∈ children ∧ anyExcl excludes x.1 = false ∧
        ((x.2.isDir = true
            ∧ (p = [x.1] ∨ ∃ q, q ∈ hierShown excludes x.2 ∧ p = x.1 :: q))
          ∨ (x.2.isDir = false ∧ p = [x.1])) := by
  simp only [hierShown, mem_hierShownLoop, List.mem_filter, mem_sortByName,
    Bool.not_eq_true']
  constructor
  · rintro ⟨x, ⟨hx, hexcl⟩, hc⟩
    exact ⟨x, hx, hexcl, hc⟩
  · rintro ⟨x, hx, hexcl, hc⟩
    exact ⟨x, ⟨hx, hexcl⟩, hc⟩

theorem shown_comps_clean : ∀ (excludes : List String) (t : FSTree) (p : List String),
    p ∈ hierShown excludes t → ∀ c ∈ p, anyExcl excludes c = false := by
  intro excludes t
  induction t using FSTree.indOn with
  | hf c => intro p hp; simp [hierShown] at hp
  | hb s => intro p hp; simp [hierShown] at hp
  | hd cs ih =>
    intro p hp
    rw [mem_hierShown_dir] at hp
    rcases hp with ⟨x, hx, hexcl, ⟨_, (rfl | ⟨q, hq, rfl⟩)⟩ | ⟨_, rfl⟩⟩
    · intro c hc
      rcases List.mem_singleton.mp hc with rfl
      exact hexcl
    · intro c hc
      rcases List.mem_cons.mp hc with rfl | hcq
      · exact hexcl
      · exact ih x hx q hq c hcq
    · intro c hc
      rcases List.mem_singleton.mp hc with rfl
      exact hexcl

/-- C4: subtrees under an excluded directory are pruned, not filtered
after the fact — every component of every path in the walker's output,
of every file the renderer displays, and of every entry line the
renderer displays (directory labels included) passes the exclusion test,
so no descendant of a directory whose name contains an exclusion
substring — file or directory — ever appears in the rendered hierarchy
or in the walked sequence, even when the descendant's own name matches
nothing; concretely, excluded `skip` containing subdirectory `inner`
(whose name matches no exclusion) leaves no `inner` entry displayed. -/
theorem C4_pruned_subtrees :
    (∀ (excludes : List String) (t : FSTree) (p : List String),
      (p ∈ get_files_recursive excludes t ∨ p ∈ hierFiles excludes t
        ∨ p ∈ hierShown excludes t) →
      ∀ c ∈ p, anyExcl excludes c = false)
    ∧ hierShown ["skip"]
        (.dir [("keep.txt", .file (some [])), ("skip", .dir [("inner", .dir [])])])
      = [["keep.txt"]] := by
  constructor
  · intro excludes t p hp
    rcases hp with hw | hh | hs
    · exact walk_comps_clean excludes t p hw
    · exact hier_comps_clean excludes t p hh
    · exact shown_comps_clean excludes t p hs
  · simp [hierShown, hierShownLoop, sortByName, insertByName, anyExcl, pyIn,
      containsList, startsList, pyLt, FSTree.isDir]

/-- C4, witness: applied to a one-file tree under exclusions `["skip"]`. -/
theorem C4_witness : anyExcl ["skip"] "x.txt" = false :=
  C4_pruned_subtrees.1 ["skip"] (FSTree.dir [("x.txt", FSTree.file (some []))]) ["x.txt"]
    (Or.inl (by simp [get_files_recursive, walkDirs, anyExcl, pyIn, containsList,
      startsList, FSTree.isDir]))
    "x.txt" (by simp)

theorem blankFailedL_eq (cs : List (String × FSTree)) :
    blankFailedL cs = cs.map (fun it => (it.1, blankFailed it.2)) := by
  induction cs with
  | nil => simp [blankFailedL]
  | cons x rest ih =>
    obtain ⟨n, c⟩ := x
    simp [blankFailedL, ih]

theorem isDir_blankFailed (t : FSTree) : (blankFailed t).isDir = t.isDir := by
  cases t with
  | file c => cases c <;> simp [blankFailed, FSTree.isDir]
  | dir cs => simp [blankFailed, FSTree.isDir]
  | badDir s => simp [blankFailed, FSTree.isDir]

theorem insertByName_map (x : String × FSTree) (l : List (String × FSTree)) :
    insertByName (x.1, blankFailed x.2) (l.map (fun it => (it.1, blankFailed it.2)))
      = (insertByName x l).map (fun it => (it.1, blankFailed it.2)) := by
  induction l with
  | nil => simp [insertByName]
  | cons y ys ih =>
    by_cases hlt : pyLt y.1.data x.1.data
    · simp [insertByName, hlt, ih]
    · simp [insertByName, hlt]

theorem sortByName_map (cs : List (String × FSTree)) :
    sortByName (cs.map (fun it => (it.1, blankFailed it.2)))
      = (sortByName cs).map (fun it => (it.1, blankFailed it.2)) := by
  induction cs with
  | nil => simp [sortByName]
  | cons x xs ih => simp only [List.map_cons, sortByName, ih, insertByName_map]

theorem filter_map_pred (g : String × FSTree → Bool)
    (hg : ∀ it : String × FSTree, g (it.1, blankFailed it.2) = g it)
    (l : List (String × FSTree)) :
    (l.map (fun it => (it.1, blankFailed it.2))).filter g
      = (l.filter g).map (fun it => (it.1, blankFailed it.2)) := by
  induction l with
  | nil => simp
  | cons x xs ih =>
    simp only [List.map_cons, List.filter_cons]
    rw [hg x]
    by_cases h : g x = true
    · simp [h, ih]
    · simp [h, ih]

theorem flatMapIdx_blank (sep : Char) (path pre : String) (ex : List String) (n : Nat) :
    ∀ (l : List (String × FSTree)) (i : Nat),
    (∀ x ∈ l, ∀ (path2 pre2 : String), get_hierarchy sep path2 (blankFailed x.2) pre2 ex
        = get_hierarchy sep path2 x.2 pre2 ex) →
    flatMapIdx (entrySpec sep path pre ex n) i (l.map (fun it => (it.1, blankFailed it.2)))
      = flatMapIdx (entrySpec sep path pre ex n) i l := by
  intro l
  induction l with
  | nil => intro i _; simp [flatMapIdx]
  | cons x xs ih =>
    intro i hall
    simp only [List.map_cons, flatMapIdx]
    congr 1
    · simp only [entrySpec, isDir_blankFailed]
      by_cases hdd : x.2.isDir = true
      · rw [if_pos hdd, if_pos hdd, hall x (List.mem_cons_self x xs)]
      · rw [if_neg hdd, if_neg hdd]
    · exact ih (i + 1) (fun y hy => hall y (List.mem_cons_of_mem x hy))

theorem hier_blank (excludes : List String) : ∀ (t : FSTree) (sep : Char) (path pre : String),
    get_hierarchy sep path (blankFailed t) pre excludes
      = get_hierarchy sep path t pre excludes := by
  intro t
  induction t using FSTree.indOn with
  | hf c => intro sep path pre; cases c <;> simp [blankFailed, get_hierarchy]
  | hb s => intro sep path pre; simp [blankFailed, get_hierarchy]
  | hd cs ih =>
    intro sep path pre
    simp only [blankFailed, blankFailedL_eq]
    simp only [get_hierarchy]
    rw [hierLoop_eq, hierLoop_eq, sortByName_map,
      filter_map_pred (fun it => !(anyExcl excludes it.1)) (fun it => rfl),
      List.length_map]
    congr 1
    exact flatMapIdx_blank sep path pre excludes _ _ 0
      (fun y hy => ih y (mem_sortByName.mp (List.mem_filter.mp hy).1) sep)

theorem walkDirs_blank (ex : List String) :
    ∀ l : List (String × FSTree),
    (∀ x ∈ l, get_files_recursive ex (blankFailed x.2) = get_files_recursive ex x.2) →
    walkDirs ex (l.map (fun it => (it.1, blankFailed it.2))) = walkDirs ex l := by
  intro l
  induction l with
  | nil => intro _; simp [walkDirs]
  | cons x xs ih =>
    intro hall
    obtain ⟨name, child⟩ := x
    simp only [List.map_cons, walkDirs]
    rw [hall (name, child) (List.mem_cons_self _ _)]
    rw [ih (fun y hy => hall y (List.mem_cons_of_mem _ hy))]

theorem walk_blank (excludes : List String) : ∀ t : FSTree,
    get_files_recursive excludes (blankFailed t) = get_files_recursive excludes t := by
  intro t
  induction t using FSTree.indOn with
  | hf c => cases c <;> simp [blankFailed, get_files_recursive]
  | hb s => simp [blankFailed, get_files_recursive]
  | hd cs ih =>
    simp only [blankFailed, blankFailedL_eq]
    simp only [get_files_recursive]
    rw [filter_map_pred (fun it => !it.2.isDir) (fun it => by simp [isDir_blankFailed]),
      filter_map_pred (fun it => !(anyExcl excludes it.1)) (fun it => rfl),
      filter_map_pred (fun it => it.2.isDir) (fun it => by simp [isDir_blankFailed]),
      filter_map_pred (fun it => !(anyExcl excludes it.1)) (fun it => rfl),
      List.map_map]
    rw [walkDirs_blank excludes _
      (fun y hy => ih y (List.mem_filter.mp (List.mem_filter.mp hy).1).1)]
    rfl

theorem find_blank (name : String) (cs : List (String × FSTree)) :
    (cs.map (fun it => (it.1, blankFailed it.2))).find? (fun it => it.1 == name)
      = (cs.find? (fun it => it.1 == name)).map (fun it => (it.1, blankFailed it.2)) := by
  induction cs with
  | nil => simp
  | cons x xs ih =>
    by_cases h : (x.1 == name) = true
    · simp [List.find?, h]
    · simp [List.find?, h, ih]

theorem resolve_blank : ∀ (p : List String) (t : FSTree),
    read_file (resolveFile (blankFailed t) p) = read_file (resolveFile t p) := by
  intro p
  induction p with
  | nil =>
    intro t
    cases t with
    | file c => cases c <;> simp [blankFailed, resolveFile, read_file, strJoin_nil]
    | dir cs => simp [blankFailed, resolveFile, read_file]
    | badDir s => simp [blankFailed, resolveFile, read_file]
  | cons name rest ih =>
    intro t
    cases t with
    | file c => cases c <;> simp [blankFailed, resolveFile, read_file]
    | badDir s => simp [blankFailed, resolveFile]
    | dir cs =>
      simp only [blankFailed, blankFailedL_eq, resolveFile]
      rw [find_blank]
      cases hf : cs.find? (fun it => it.1 == name) with
      | none => simp
      | some y => simpa using ih y.2

/-- C7: a failed read contributes the empty string (`read_file` on an
unreadable file yields `""`, no exception escapes), and the built document
is byte-identical to the one built over the same tree with every
unreadable file replaced by a readable empty file — so the failing file's
header appears with empty content and every other block is unchanged. -/
theorem C7_read_failure_blanked :
    read_file none = ""
    ∧ ∀ (sep : Char) (path : String) (t : FSTree) (excludes : List String),
      get_folder_content sep path (blankFailed t) excludes
        = get_folder_content sep path t excludes := by
  constructor
  · rfl
  · intro sep path t excludes
    unfold get_folder_content
    rw [hier_blank, walk_blank]
    have hfun :
        (fun (r : String) (p : List String) =>
          r ++ ("// File: " ++ basename sep path ++ "\\" ++ String.intercalate (sepStr sep) p)
            ++ "\n\n" ++ read_file (resolveFile (blankFailed t) p) ++ "\n\n\n\n\n")
        = (fun (r : String) (p : List String) =>
          r ++ ("// File: " ++ basename sep path ++ "\\" ++ String.intercalate (sepStr sep) p)
            ++ "\n\n" ++ read_file (resolveFile t p) ++ "\n\n\n\n\n") := by
      funext r p
      rw [resolve_blank]
    rw [hfun]
